import Mathlib

/-!
Verification of the `mkgrad` reverse-mode autodiff engine
(`src/differentiable.rs`) against its specification.

The Rust code stores nodes as `Rc<RefCell<Differentiable<T>>>`.  We embed
it with an explicit arena: a `Store` is a list of `Node`s and an `Rc`
handle is the node's index (`Nat`) into that list, so that mutation
through shared handles becomes an explicit store update.  The generic
numeric type `T` (bounded by `Zero + One + AddAssign + Mul`) is
instantiated at `Int`, a faithful instance of those bounds.

The source contains exactly two gradient closures:
  * the leaf closure `|_| Vec::new()` attached by `From<T>`;
  * the multiply closure attached by `Mul<Differentiable>`, which returns
    `vec![diff.value * diff.children[1].value,
          diff.value * diff.children[0].value]`.
We model the closure field as the two-constructor enum `GradFn` and give
its evaluation separately (`evalGradFn`), following the source literally.
Evaluation is `Option`-valued: `none` models the `children[1]` /
`children[0]` index panic the multiply closure raises when the node has
fewer than two children; no other statement of the engine can panic
(`zip` truncates silently, it never fails).
-/

namespace Mkgrad

/-- Which of the two gradient closures of the source a node carries. -/
inductive GradFn where
  | leafGrad : GradFn
  | mulGrad : GradFn
deriving DecidableEq, Repr

/-- Arena form of `struct Differentiable<T>`: `value`, `gradient`,
`children` (indices standing for the `Rc` handles), and the gradient
closure tag. -/
structure Node where
  value : Int
  gradient : Int
  children : List Nat
  gradFn : GradFn
deriving DecidableEq, Repr

instance : Inhabited Node := ⟨⟨0, 0, [], GradFn.leafGrad⟩⟩

/-- The heap of allocated nodes; an index into it models an `Rc` handle. -/
abbrev Store := List Node

/-- Dereference a handle.  All stores we consider only ever use indices
below the store length, where this is exact. -/
def nodeAt (s : Store) (i : Nat) : Node := s.getD i default

/-- The by-value Rust struct `Differentiable<T>` before/while it is woven
into `Rc` handles: since the public constructors move their operands,
such a value owns its operand structs outright, which a nested inductive
captures exactly. -/
inductive Differentiable where
  | mk : Int → Int → List Differentiable → GradFn → Differentiable

namespace Differentiable

def value : Differentiable → Int
  | .mk v _ _ _ => v

def gradient : Differentiable → Int
  | .mk _ g _ _ => g

def children : Differentiable → List Differentiable
  | .mk _ _ ch _ => ch

def gradFn : Differentiable → GradFn
  | .mk _ _ _ f => f

/-- `impl From<T> for Differentiable`: leaf with `value`, gradient
`T::zero()`, no children, and the empty-vector gradient closure. -/
def fromValue (v : Int) : Differentiable :=
  .mk v 0 [] GradFn.leafGrad

/-- `impl Mul<Differentiable> for Differentiable`: value is the product,
gradient starts at `T::zero()`, children are `[self, rhs]` wrapped in
fresh handles, closure is the multiply closure. -/
def mul (a b : Differentiable) : Differentiable :=
  .mk (a.value * b.value) 0 [a, b] GradFn.mulGrad

/-- `impl Mul<T> for Differentiable`: lift the raw value with
`Differentiable::from`, then delegate to the two-`Differentiable` form. -/
def mulT (a : Differentiable) (v : Int) : Differentiable :=
  let new_rhs := fromValue v
  a.mul new_rhs

end Differentiable

/-- The values of `Differentiable` reachable through the public
constructors alone (`From<T>::from`, `Mul<Differentiable>::mul`,
`Mul<T>::mul`). -/
inductive Built : Differentiable → Prop where
  | lift (v : Int) : Built (Differentiable.fromValue v)
  | mulNode {a b : Differentiable} : Built a → Built b → Built (a.mul b)
  | mulRaw {a : Differentiable} (v : Int) : Built a → Built (a.mulT v)

mutual

/-- Number of nodes of a struct tree (used as fuel / length bookkeeping). -/
def sizeD : Differentiable → Nat
  | .mk _ _ ch _ => sizeL ch + 1

/-- Total size of a list of struct trees. -/
def sizeL : List Differentiable → Nat
  | [] => 0
  | d :: ds => sizeD d + sizeL ds

end

mutual

/-- Allocate the `Rc` cells of a struct tree into the arena, children
first, each operand in order, then the node itself (this is the order in
which `Rc::new` runs in the source: a node's operands are wrapped when
the node is constructed, after everything inside them was wrapped).
Returns the root's handle and the extended store. -/
def load : Differentiable → Store → Nat × Store
  | .mk v g ch f, s =>
    let p := loadList ch s
    (p.2.length, p.2 ++ [⟨v, g, p.1, f⟩])

/-- Allocate a list of operand trees left to right. -/
def loadList : List Differentiable → Store → List Nat × Store
  | [], s => ([], s)
  | d :: ds, s =>
    let p := load d s
    let q := loadList ds p.2
    (p.1 :: q.1, q.2)

end

/-- `topology_sort`, fuelled.  The source is the unguarded recursion
`for child in children { result.append(topology_sort(child)) };
result.push(self)`; the fuel only bounds the recursion depth and is
irrelevant on every store whose children indices are strictly below the
node's own index (which holds for every store built by the engine),
where any fuel above the root index yields the full traversal. -/
def topoFuel (s : Store) : Nat → Nat → List Nat
  | 0, _ => []
  | Nat.succ f, i => ((nodeAt s i).children.map (topoFuel s f)).flatten ++ [i]

/-- `fn topology_sort`: depth-first post-order walk from the handle,
without deduplication. -/
def topology_sort (s : Store) (i : Nat) : List Nat :=
  topoFuel s (i + 1) i

/-- Evaluate a node's gradient closure on the current store.
`leafGrad` is `|_| Vec::new()`.  `mulGrad` is
`|diff| vec![diff.value * diff.children[1].value,
             diff.value * diff.children[0].value]`; indexing
`children[1]` (and `children[0]`) panics when the node has fewer than
two children, which `none` models. -/
def evalGradFn (s : Store) (i : Nat) : Option (List Int) :=
  match (nodeAt s i).gradFn with
  | GradFn.leafGrad => some []
  | GradFn.mulGrad =>
    match (nodeAt s i).children with
    | c0 :: c1 :: _ =>
      some [(nodeAt s i).value * (nodeAt s c1).value,
        (nodeAt s i).value * (nodeAt s c0).value]
    | _ => none

/-- `child.borrow_mut().gradient += grad`: add `g` to the gradient of the
node at `c`. -/
def addGrad (s : Store) (c : Nat) (g : Int) : Store :=
  s.set c { nodeAt s c with gradient := (nodeAt s c).gradient + g }

/-- One iteration of the backward loop at handle `i`: run the gradient
closure, then `for (child, grad) in children.iter().zip(grads.iter())
{ child.gradient += grad }` — `zip` stops at the shorter list. -/
def step (s : Store) (i : Nat) : Option Store :=
  (evalGradFn s i).map fun grads =>
    ((nodeAt s i).children.zip grads).foldl
      (fun s' p => addGrad s' p.1 p.2) s

/-- The `for diff in sorted.iter().rev()` loop, over an explicit list of
handles. -/
def backLoop : Store → List Nat → Option Store
  | s, [] => some s
  | s, i :: rest =>
    match step s i with
    | none => none
    | some s' => backLoop s' rest

/-- `fn backward`: seed `gradient += T::one()` on the root, topologically
sort, then walk the sequence in reverse. -/
def backward (s : Store) (root : Nat) : Option Store :=
  let s1 := addGrad s root 1
  let sorted := topology_sort s1 root
  backLoop s1 sorted.reverse

/-- Gradient of the node a handle points at. -/
def gradAt (s : Store) (i : Nat) : Int := (nodeAt s i).gradient

/-! ### Store and loading lemmas -/

theorem nodeAt_append_lt {s : Store} (t : Store) {i : Nat} (h : i < s.length) :
    nodeAt (s ++ t) i = nodeAt s i := by
  unfold nodeAt
  rw [List.getD_eq_getElem?_getD, List.getD_eq_getElem?_getD,
    List.getElem?_append_left h]

theorem nodeAt_append_len (s : Store) (n : Node) (t : Store) :
    nodeAt (s ++ n :: t) s.length = n := by
  unfold nodeAt
  rw [List.getD_eq_getElem?_getD, List.getElem?_append_right (Nat.le_refl _)]
  simp

mutual

theorem load_shape : ∀ (t : Differentiable) (s : Store),
    (load t s).2.length = s.length + sizeD t ∧ ∃ d, (load t s).2 = s ++ d
  | .mk v g ch f, s => by
    have h := loadList_shape ch s
    refine ⟨?_, ?_⟩
    · simp only [load, List.length_append, h.1, sizeD, List.length_cons,
        List.length_nil]
      omega
    · obtain ⟨d, hd⟩ := h.2
      exact ⟨d ++ [⟨v, g, (loadList ch s).1, f⟩], by simp [load, hd]⟩

theorem loadList_shape : ∀ (ds : List Differentiable) (s : Store),
    (loadList ds s).2.length = s.length + sizeL ds ∧
      ∃ d, (loadList ds s).2 = s ++ d
  | [], s => ⟨by simp [loadList, sizeL], [], by simp [loadList]⟩
  | d :: ds, s => by
    have h1 := load_shape d s
    have h2 := loadList_shape ds (load d s).2
    refine ⟨?_, ?_⟩
    · simp only [loadList, h2.1, h1.1, sizeL]
      omega
    · obtain ⟨d1, hd1⟩ := h1.2
      obtain ⟨d2, hd2⟩ := h2.2
      refine ⟨d1 ++ d2, ?_⟩
      simp only [loadList]
      rw [hd2, hd1, List.append_assoc]

end

theorem load_root (t : Differentiable) (s : Store) :
    (load t s).1 + 1 = s.length + sizeD t := by
  cases t with
  | mk v g ch f =>
    have h := loadList_shape ch s
    simp only [load, h.1, sizeD]
    omega

theorem load_root_lt (t : Differentiable) (s : Store) :
    (load t s).1 < (load t s).2.length := by
  have h1 := load_root t s
  have h2 := (load_shape t s).1
  omega

theorem sizeD_le_sizeL_of_mem {d : Differentiable} :
    ∀ {ds : List Differentiable}, d ∈ ds → sizeD d ≤ sizeL ds := by
  intro ds h
  induction ds with
  | nil => cases h
  | cons e es ih =>
    rcases List.mem_cons.mp h with h | h
    · subst h; simp [sizeL]
    · have := ih h
      simp only [sizeL]
      omega

mutual

/-- On a store extending the arena produced by `load`, the post-order
walk from the loaded root, given enough fuel, visits exactly the
fragment's indices in increasing order. -/
theorem topo_load : ∀ (t : Differentiable) (s rest : Store) (f : Nat),
    sizeD t ≤ f →
    topoFuel ((load t s).2 ++ rest) f (load t s).1 =
      List.range' s.length (sizeD t)
  | .mk v g ch fn, s, rest, 0, hf => by
    exfalso; simp [sizeD] at hf
  | .mk v g ch fn, s, rest, Nat.succ f, hf => by
    have hch : ∀ d ∈ ch, sizeD d ≤ f := by
      intro d hd
      have h1 := sizeD_le_sizeL_of_mem hd
      simp only [sizeD] at hf
      omega
    have hlen := (loadList_shape ch s).1
    simp only [load, topoFuel]
    rw [List.append_assoc, List.singleton_append,
      nodeAt_append_len (loadList ch s).2 ⟨v, g, (loadList ch s).1, fn⟩ rest]
    rw [show ((loadList ch s).2 ++
        ⟨v, g, (loadList ch s).1, fn⟩ :: rest : Store) =
      (loadList ch s).2 ++ ([⟨v, g, (loadList ch s).1, fn⟩] ++ rest) by simp]
    rw [show (⟨v, g, (loadList ch s).1, fn⟩ : Node).children =
      (loadList ch s).1 from rfl]
    have htl := topo_loadList ch s
      ([(⟨v, g, (loadList ch s).1, fn⟩ : Node)] ++ rest) f hch
    rw [htl]
    rw [hlen, show (sizeD (Differentiable.mk v g ch fn)) = sizeL ch + 1 from rfl]
    rw [← @List.range'_one (s.length + sizeL ch) 1,
      List.range'_append_1, Nat.add_comm 1 (sizeL ch)]

theorem topo_loadList : ∀ (ds : List Differentiable) (s rest : Store) (f : Nat),
    (∀ d ∈ ds, sizeD d ≤ f) →
    (((loadList ds s).1).map
        (topoFuel ((loadList ds s).2 ++ rest) f)).flatten =
      List.range' s.length (sizeL ds)
  | [], s, rest, f, h => by simp [loadList, sizeL]
  | d :: ds, s, rest, f, h => by
    obtain ⟨dlt, hdlt⟩ := (loadList_shape ds (load d s).2).2
    simp only [loadList, List.map_cons, List.flatten_cons]
    rw [topo_loadList ds (load d s).2 rest f
      (fun e he => h e (List.mem_cons_of_mem d he))]
    rw [hdlt, List.append_assoc]
    rw [topo_load d s (dlt ++ rest) f (h d (List.mem_cons_self d ds))]
    rw [(load_shape d s).1, show sizeL (d :: ds) = sizeD d + sizeL ds from rfl,
      List.range'_append_1, Nat.add_comm (sizeL ds) (sizeD d)]

end

theorem nodeAt_of_le {s : Store} {i : Nat} (h : s.length ≤ i) :
    nodeAt s i = default := by
  unfold nodeAt
  rw [List.getD_eq_getElem?_getD, List.getElem?_eq_none h]
  rfl

/-- Every handle stored in a node points strictly below the node's own
index.  This holds for every store the engine builds (operands are
allocated before the node that references them) and makes the graph
acyclic. -/
def wfStore (s : Store) : Prop :=
  ∀ j, ∀ c ∈ (nodeAt s j).children, c < j

theorem wfStore_nil : wfStore [] := by
  intro j c hc
  rw [nodeAt_of_le (by simp)] at hc
  cases hc

mutual

theorem load_wf : ∀ (t : Differentiable) (s : Store),
    wfStore s → wfStore (load t s).2
  | .mk v g ch fn, s, hs => by
    have h := loadList_wf ch s hs
    intro j c hc
    simp only [load] at hc
    rcases Nat.lt_trichotomy j (loadList ch s).2.length with hj | hj | hj
    · rw [nodeAt_append_lt _ hj] at hc
      exact h.1 j c hc
    · subst hj
      rw [show ((loadList ch s).2 ++ [⟨v, g, (loadList ch s).1, fn⟩] : Store) =
          (loadList ch s).2 ++ ⟨v, g, (loadList ch s).1, fn⟩ :: [] from rfl,
        nodeAt_append_len] at hc
      exact h.2 c hc
    · rw [nodeAt_of_le (by simp; omega)] at hc
      cases hc

theorem loadList_wf : ∀ (ds : List Differentiable) (s : Store),
    wfStore s →
    wfStore (loadList ds s).2 ∧
      ∀ i ∈ (loadList ds s).1, i < (loadList ds s).2.length
  | [], s, hs => ⟨hs, by intro i hi; cases hi⟩
  | d :: ds, s, hs => by
    have h1 := load_wf d s hs
    have h2 := loadList_wf ds (load d s).2 h1
    refine ⟨h2.1, ?_⟩
    intro i hi
    simp only [loadList, List.mem_cons] at hi ⊢
    rcases hi with hi | hi
    · subst hi
      have ha := load_root_lt d s
      have hb := (loadList_shape ds (load d s).2).1
      omega
    · exact h2.2 i hi

end

/-- Reachability along `children` edges, from the handle `r`. -/
inductive Reaches (s : Store) (r : Nat) : Nat → Prop where
  | refl : Reaches s r r
  | step {j c : Nat} : Reaches s r j → c ∈ (nodeAt s j).children →
      Reaches s r c

theorem Reaches.trans {s : Store} {a b c : Nat}
    (h1 : Reaches s a b) (h2 : Reaches s b c) : Reaches s a c := by
  induction h2 with
  | refl => exact h1
  | step hr hc ih => exact Reaches.step ih hc

theorem Reaches.le {s : Store} (hwf : wfStore s) {r i : Nat}
    (h : Reaches s r i) : i ≤ r := by
  induction h with
  | refl => exact Nat.le_refl r
  | step hr hc ih => exact Nat.le_of_lt (Nat.lt_of_lt_of_le (hwf _ _ hc) ih)

mutual

theorem reach_load : ∀ (t : Differentiable) (s rest : Store) (i : Nat),
    s.length ≤ i → i < s.length + sizeD t →
    Reaches ((load t s).2 ++ rest) (load t s).1 i
  | .mk v g ch fn, s, rest, i, hlo, hhi => by
    have hroot : (load (Differentiable.mk v g ch fn) s).1 =
        (loadList ch s).2.length := rfl
    have hlen := (loadList_shape ch s).1
    rcases Nat.lt_or_ge i (s.length + sizeL ch) with hi | hi
    · have hr := reach_loadList ch s
        ([(⟨v, g, (loadList ch s).1, fn⟩ : Node)] ++ rest) i hlo hi
      obtain ⟨r, hrmem, hrr⟩ := hr
      have hstep : Reaches ((load (Differentiable.mk v g ch fn) s).2 ++ rest)
          (load (Differentiable.mk v g ch fn) s).1 r := by
        refine Reaches.step Reaches.refl ?_
        rw [hroot]
        have : ((load (Differentiable.mk v g ch fn) s).2 ++ rest : Store) =
            (loadList ch s).2 ++ (⟨v, g, (loadList ch s).1, fn⟩ :: rest) := by
          simp [load]
        rw [this, nodeAt_append_len]
        exact hrmem
      have : ((load (Differentiable.mk v g ch fn) s).2 ++ rest : Store) =
          (loadList ch s).2 ++
            ([(⟨v, g, (loadList ch s).1, fn⟩ : Node)] ++ rest) := by
        simp [load]
      rw [this] at hstep ⊢
      exact hstep.trans hrr
    · have : i = (load (Differentiable.mk v g ch fn) s).1 := by
        have := load_root (Differentiable.mk v g ch fn) s
        simp only [sizeD] at hhi this
        omega
      subst this
      exact Reaches.refl

theorem reach_loadList : ∀ (ds : List Differentiable) (s rest : Store) (i : Nat),
    s.length ≤ i → i < s.length + sizeL ds →
    ∃ r ∈ (loadList ds s).1, Reaches ((loadList ds s).2 ++ rest) r i
  | [], s, rest, i, hlo, hhi => by
    exfalso; simp [sizeL] at hhi; omega
  | d :: ds, s, rest, i, hlo, hhi => by
    obtain ⟨dlt, hdlt⟩ := (loadList_shape ds (load d s).2).2
    have hlen1 := (load_shape d s).1
    rcases Nat.lt_or_ge i (s.length + sizeD d) with hi | hi
    · refine ⟨(load d s).1, by simp [loadList], ?_⟩
      have hr := reach_load d s (dlt ++ rest) i hlo hi
      have : ((loadList (d :: ds) s).2 ++ rest : Store) =
          (load d s).2 ++ (dlt ++ rest) := by
        simp only [loadList]
        rw [hdlt, List.append_assoc]
      rw [this]
      exact hr
    · have hr := reach_loadList ds (load d s).2 rest i (by omega)
        (by simp only [sizeL] at hhi; omega)
      obtain ⟨r, hrmem, hrr⟩ := hr
      exact ⟨r, by simp [loadList, hrmem], hrr⟩

end

/-- `a` occurs strictly before `b` in the list `L`. -/
def beforeIn (L : List Nat) (a b : Nat) : Prop :=
  ∃ p q : Nat, p < q ∧ L[p]? = some a ∧ L[q]? = some b

/-- On a store holding exactly one loaded struct tree, `topology_sort`
from the root lists all the indices in increasing order. -/
theorem topology_sort_loaded (d : Differentiable) :
    topology_sort (load d []).2 (load d []).1 = List.range' 0 (sizeD d) := by
  have hroot := load_root d []
  have hf : sizeD d ≤ (load d []).1 + 1 := by
    simp only [List.length_nil, Nat.zero_add] at hroot
    omega
  have h := topo_load d [] [] ((load d []).1 + 1) hf
  rw [List.append_nil] at h
  simpa [topology_sort] using h

/-- C1: for every value built through the public constructors, once its
graph is in the heap, `topology_sort` from the root lists every node
reachable from the root exactly once (no duplicates), and every child
occurs strictly before each node that lists it as a child.  (Through the
public constructors every graph is a tree — the operands are moved and
rewrapped in fresh handles — so no node is reachable along two paths and
the unguarded walk never revisits a node.) -/
theorem topology_sort_complete_ordered (d : Differentiable) (_hb : Built d) :
    (topology_sort (load d []).2 (load d []).1).Nodup ∧
    (∀ i, Reaches (load d []).2 (load d []).1 i ↔
      i ∈ topology_sort (load d []).2 (load d []).1) ∧
    ∀ j ∈ topology_sort (load d []).2 (load d []).1,
      ∀ c ∈ (nodeAt (load d []).2 j).children,
        beforeIn (topology_sort (load d []).2 (load d []).1) c j := by
  have hts := topology_sort_loaded d
  have hwf : wfStore (load d []).2 := load_wf d [] wfStore_nil
  have hroot : (load d []).1 + 1 = sizeD d := by
    have := load_root d []
    simpa using this
  refine ⟨?_, ?_, ?_⟩
  · rw [hts]
    exact List.nodup_range' _ _
  · intro i
    rw [hts, List.mem_range'_1]
    constructor
    · intro h
      have hle := h.le hwf
      exact ⟨Nat.zero_le i, by omega⟩
    · rintro ⟨-, hi⟩
      have hr := reach_load d [] [] i (by simp)
        (by simp only [List.length_nil, Nat.zero_add]; omega)
      rw [List.append_nil] at hr
      exact hr
  · intro j hj c hc
    have hcj : c < j := hwf j c hc
    rw [hts] at hj ⊢
    rw [List.mem_range'_1] at hj
    refine ⟨c, j, hcj, ?_, ?_⟩
    · have := List.getElem?_range' 0 1 (show c < sizeD d by omega)
      simpa using this
    · have := List.getElem?_range' 0 1 (show j < sizeD d by omega)
      simpa using this

/-- All child-handle occurrences across an arena: index `i` occurs once
in this list for every parent edge pointing at `i`. -/
def allKids (s : Store) : List Nat := (s.map Node.children).flatten

theorem allKids_append (a b : Store) :
    allKids (a ++ b) = allKids a ++ allKids b := by
  simp [allKids]

mutual

/-- The child-handle occurrences of a loaded fragment, together with the
fragment's root (the one handle handed back to the caller), are a
permutation of the fragment's index range: every loaded node is pointed
at exactly once. -/
theorem kids_load : ∀ (t : Differentiable) (s : Store),
    List.Perm (allKids (load t s).2 ++ [(load t s).1])
      (allKids s ++ List.range' s.length (sizeD t))
  | .mk v g ch fn, s => by
    have ih := kids_loadList ch s
    have hlen := (loadList_shape ch s).1
    have hone : allKids [(⟨v, g, (loadList ch s).1, fn⟩ : Node)] =
        (loadList ch s).1 := by
      simp [allKids]
    simp only [load, allKids_append]
    rw [hone]
    refine List.Perm.trans (ih.append_right [(loadList ch s).2.length]) ?_
    rw [List.append_assoc, hlen]
    rw [← @List.range'_one (s.length + sizeL ch) 1,
      List.range'_append_1, Nat.add_comm 1 (sizeL ch),
      show sizeD (Differentiable.mk v g ch fn) = sizeL ch + 1 from rfl]

theorem kids_loadList : ∀ (ds : List Differentiable) (s : Store),
    List.Perm (allKids (loadList ds s).2 ++ (loadList ds s).1)
      (allKids s ++ List.range' s.length (sizeL ds))
  | [], s => by simp [loadList, sizeL]
  | d :: ds, s => by
    have ih1 := kids_load d s
    have ih2 := kids_loadList ds (load d s).2
    have hlen1 := (load_shape d s).1
    simp only [loadList]
    refine List.Perm.trans List.perm_middle ?_
    refine List.Perm.trans (ih2.cons _) ?_
    refine List.Perm.trans List.perm_middle.symm ?_
    rw [show (allKids (load d s).2 ++ (load d s).1 ::
          List.range' (load d s).2.length (sizeL ds) : List Nat) =
        (allKids (load d s).2 ++ [(load d s).1]) ++
          List.range' (load d s).2.length (sizeL ds) by
      rw [List.append_assoc, List.singleton_append]]
    refine List.Perm.trans (ih1.append_right _) ?_
    rw [List.append_assoc, hlen1, List.range'_append_1,
      Nat.add_comm (sizeL ds) (sizeD d),
      show sizeL (d :: ds) = sizeD d + sizeL ds from rfl]

end

/-- C10: a graph built solely through the public constructors is a tree
in the heap: across the whole arena, every handle occurs at most once in
a children list — no node has more than one parent, so shared children
and diamond dependencies cannot arise through the public interface. -/
theorem built_graph_tree (d : Differentiable) (_hb : Built d) :
    ∀ i : Nat, (allKids (load d []).2).count i ≤ 1 := by
  intro i
  have hp := kids_load d []
  have hcount := hp.count_eq i
  rw [List.count_append, List.count_append] at hcount
  have hnd : (List.range' ([] : Store).length (sizeD d)).count i ≤ 1 :=
    List.nodup_iff_count_le_one.mp (List.nodup_range' _ _) i
  have hz : (allKids ([] : Store)).count i = 0 := by simp [allKids]
  omega

/-! ### What `backward` does to the store -/

theorem nodeAt_set (s : Store) (c : Nat) (n : Node) (j : Nat) :
    nodeAt (s.set c n) j = if c = j ∧ c < s.length then n else nodeAt s j := by
  unfold nodeAt
  rw [List.getD_eq_getElem?_getD, List.getD_eq_getElem?_getD, List.getElem?_set]
  by_cases h1 : c = j
  · subst h1
    by_cases h2 : c < s.length
    · simp [h2]
    · simp [h2, List.getElem?_eq_none (Nat.le_of_not_lt h2)]
  · simp [h1]

/-- Two stores with the same length and the same `value`, `children` and
`gradFn` at every index: everything but the gradients agrees. -/
def sameStruct (s t : Store) : Prop :=
  s.length = t.length ∧ ∀ j : Nat,
    (nodeAt s j).value = (nodeAt t j).value ∧
    (nodeAt s j).children = (nodeAt t j).children ∧
    (nodeAt s j).gradFn = (nodeAt t j).gradFn

theorem sameStruct_refl (s : Store) : sameStruct s s :=
  ⟨rfl, fun _ => ⟨rfl, rfl, rfl⟩⟩

theorem sameStruct_symm {s t : Store} (h : sameStruct s t) : sameStruct t s :=
  ⟨h.1.symm, fun j => ⟨(h.2 j).1.symm, (h.2 j).2.1.symm, (h.2 j).2.2.symm⟩⟩

theorem sameStruct_trans {s t u : Store}
    (h1 : sameStruct s t) (h2 : sameStruct t u) : sameStruct s u :=
  ⟨h1.1.trans h2.1, fun j =>
    ⟨(h1.2 j).1.trans (h2.2 j).1, (h1.2 j).2.1.trans (h2.2 j).2.1,
      (h1.2 j).2.2.trans (h2.2 j).2.2⟩⟩

theorem addGrad_length (s : Store) (c : Nat) (g : Int) :
    (addGrad s c g).length = s.length := by
  simp [addGrad]

theorem addGrad_sameStruct (s : Store) (c : Nat) (g : Int) :
    sameStruct s (addGrad s c g) := by
  refine ⟨(addGrad_length s c g).symm, fun j => ?_⟩
  unfold addGrad
  rw [nodeAt_set]
  by_cases h : c = j ∧ c < s.length
  · rw [if_pos h]
    obtain ⟨h1, h2⟩ := h
    subst h1
    exact ⟨rfl, rfl, rfl⟩
  · rw [if_neg h]
    exact ⟨rfl, rfl, rfl⟩

theorem addGrad_grad (s : Store) (c : Nat) (g : Int) (j : Nat) :
    gradAt (addGrad s c g) j =
      gradAt s j + if c = j ∧ c < s.length then g else 0 := by
  unfold gradAt addGrad
  rw [nodeAt_set]
  by_cases h : c = j ∧ c < s.length
  · rw [if_pos h, if_pos h]
    obtain ⟨h1, h2⟩ := h
    subst h1
    rfl
  · rw [if_neg h, if_neg h]
    omega

/-- The sequential gradient updates of one backward-loop iteration:
`for (child, grad) in children.zip(grads) { child.gradient += grad }`. -/
def applyPairs (s : Store) (ps : List (Nat × Int)) : Store :=
  ps.foldl (fun s' p => addGrad s' p.1 p.2) s

/-- Total amount a list of `(child, grad)` updates adds to index `j`
(updates aimed past the end of a store of length `n` are dropped, as
`List.set` drops them). -/
def hits (n : Nat) : List (Nat × Int) → Nat → Int
  | [], _ => 0
  | p :: ps, j => (if p.1 = j ∧ p.1 < n then p.2 else 0) + hits n ps j

theorem applyPairs_length (s : Store) (ps : List (Nat × Int)) :
    (applyPairs s ps).length = s.length := by
  induction ps generalizing s with
  | nil => rfl
  | cons p ps ih =>
    show (applyPairs (addGrad s p.1 p.2) ps).length = s.length
    rw [ih, addGrad_length]

theorem applyPairs_sameStruct (s : Store) (ps : List (Nat × Int)) :
    sameStruct s (applyPairs s ps) := by
  induction ps generalizing s with
  | nil => exact sameStruct_refl s
  | cons p ps ih =>
    exact sameStruct_trans (addGrad_sameStruct s p.1 p.2)
      (ih (addGrad s p.1 p.2))

theorem applyPairs_grad (s : Store) (ps : List (Nat × Int)) (j : Nat) :
    gradAt (applyPairs s ps) j = gradAt s j + hits s.length ps j := by
  induction ps generalizing s with
  | nil => simp [applyPairs, hits]
  | cons p ps ih =>
    show gradAt (applyPairs (addGrad s p.1 p.2) ps) j = _
    rw [ih, addGrad_grad, addGrad_length]
    simp only [hits]
    omega

theorem evalGradFn_congr {s t : Store} (h : sameStruct s t) (i : Nat) :
    evalGradFn s i = evalGradFn t i := by
  obtain ⟨hv, hc, hf⟩ := h.2 i
  simp only [evalGradFn, hv, hc, hf]
  cases (nodeAt t i).gradFn with
  | leafGrad => rfl
  | mulGrad =>
    cases hch : (nodeAt t i).children with
    | nil => rfl
    | cons c0 cs =>
      cases cs with
      | nil => rfl
      | cons c1 cs' => simp [(h.2 c0).1, (h.2 c1).1]

theorem topoFuel_congr {s t : Store} (h : sameStruct s t) :
    ∀ (f : Nat) (i : Nat), topoFuel s f i = topoFuel t f i := by
  intro f
  induction f with
  | zero => intro i; rfl
  | succ f ih =>
    intro i
    simp only [topoFuel, (h.2 i).2.1]
    congr 1
    congr 1
    exact List.map_congr_left fun c _ => ih c

theorem step_grad_eq {s : Store} {i : Nat} {gs : List Int}
    (h : evalGradFn s i = some gs) :
    step s i = some (applyPairs s ((nodeAt s i).children.zip gs)) := by
  simp [step, h, applyPairs]

/-- Parallel-run lemma: on two stores that agree on everything but the
gradients, the backward loop takes the same branch at every iteration
and adds the same amount to every gradient. -/
theorem backLoop_par : ∀ (L : List Nat) (s t s' : Store),
    sameStruct s t → backLoop s L = some s' →
    ∃ t', backLoop t L = some t' ∧ sameStruct s' t' ∧
      ∀ j : Nat, gradAt s' j - gradAt s j = gradAt t' j - gradAt t j
  | [], s, t, s', hst, h => by
    refine ⟨t, rfl, ?_, ?_⟩
    · cases h
      exact hst
    · cases h
      intro j
      omega
  | i :: L, s, t, s', hst, h => by
    simp only [backLoop] at h
    cases hstep : step s i with
    | none => rw [hstep] at h; cases h
    | some s1 =>
      rw [hstep] at h
      cases hev : evalGradFn s i with
      | none => simp [step, hev] at hstep
      | some gs =>
        have hs1 : s1 = applyPairs s ((nodeAt s i).children.zip gs) := by
          have := step_grad_eq hev
          rw [hstep] at this
          exact Option.some.inj this
        have hevt : evalGradFn t i = some gs := by
          rw [← evalGradFn_congr hst i]
          exact hev
        have ht1 : step t i =
            some (applyPairs t ((nodeAt t i).children.zip gs)) :=
          step_grad_eq hevt
        set t1 := applyPairs t ((nodeAt t i).children.zip gs) with ht1def
        have hchil : (nodeAt s i).children = (nodeAt t i).children :=
          (hst.2 i).2.1
        have hst1 : sameStruct s1 t1 := by
          rw [hs1, ht1def]
          exact sameStruct_trans
            (sameStruct_symm (applyPairs_sameStruct s _))
            (sameStruct_trans hst (applyPairs_sameStruct t _))
        obtain ⟨t', htL, hstruct, hdiff⟩ := backLoop_par L s1 t1 s' hst1 h
        refine ⟨t', by simp [backLoop, ht1, htL], hstruct, ?_⟩
        intro j
        have hd1 := hdiff j
        have hgs : gradAt s1 j = gradAt s j +
            hits s.length ((nodeAt s i).children.zip gs) j := by
          rw [hs1]
          exact applyPairs_grad s _ j
        have hgt : gradAt t1 j = gradAt t j +
            hits t.length ((nodeAt t i).children.zip gs) j := by
          rw [ht1def]
          exact applyPairs_grad t _ j
        rw [← hchil, ← hst.1] at hgt
        omega

theorem step_sameStruct {s s' : Store} {i : Nat}
    (h : step s i = some s') : sameStruct s s' := by
  cases hev : evalGradFn s i with
  | none => simp [step, hev] at h
  | some gs =>
    have := step_grad_eq hev
    rw [h] at this
    rw [Option.some.inj this]
    exact applyPairs_sameStruct s _

theorem backLoop_sameStruct : ∀ (L : List Nat) (s s' : Store),
    backLoop s L = some s' → sameStruct s s'
  | [], s, s', h => by
    cases h
    exact sameStruct_refl s
  | i :: L, s, s', h => by
    simp only [backLoop] at h
    cases hstep : step s i with
    | none => rw [hstep] at h; cases h
    | some s1 =>
      rw [hstep] at h
      exact sameStruct_trans (step_sameStruct hstep)
        (backLoop_sameStruct L s1 s' h)

theorem backward_sameStruct {s s' : Store} {r : Nat}
    (h : backward s r = some s') : sameStruct s s' := by
  unfold backward at h
  exact sameStruct_trans (addGrad_sameStruct s r 1)
    (backLoop_sameStruct _ _ _ h)

theorem nodeAt_mem {s : Store} {j : Nat} (h : j < s.length) :
    nodeAt s j ∈ s := by
  unfold nodeAt
  rw [List.getD_eq_getElem?_getD, List.getElem?_eq_getElem h]
  exact List.getElem_mem h

/-- `wfStore` only constrains indices inside the store (outside, the
children list is empty), so it is equivalent to a bounded — decidable —
condition. -/
theorem wfStore_iff (s : Store) :
    wfStore s ↔ ∀ j < s.length, ∀ c ∈ (nodeAt s j).children, c < j := by
  constructor
  · intro h j _
    exact h j
  · intro h j c hc
    by_cases hj : j < s.length
    · exact h j hj c hc
    · rw [nodeAt_of_le (Nat.le_of_not_lt hj)] at hc
      cases hc

theorem evalGradFn_isSome_of {s : Store}
    (hmul : ∀ n ∈ s, n.gradFn = GradFn.mulGrad → 2 ≤ n.children.length)
    (i : Nat) : (evalGradFn s i).isSome := by
  by_cases hi : i < s.length
  · have hm : nodeAt s i ∈ s := nodeAt_mem hi
    cases hfn : (nodeAt s i).gradFn with
    | leafGrad => simp [evalGradFn, hfn]
    | mulGrad =>
      have h2 := hmul _ hm hfn
      cases hch : (nodeAt s i).children with
      | nil => rw [hch] at h2; simp at h2
      | cons c0 cs =>
        cases cs with
        | nil => rw [hch] at h2; simp at h2
        | cons c1 cs' => simp [evalGradFn, hfn, hch]
  · have : evalGradFn s i = some [] := by
      unfold evalGradFn
      rw [nodeAt_of_le (Nat.le_of_not_lt hi)]
    rw [this]
    rfl

theorem backLoop_total : ∀ (L : List Nat) (s : Store),
    (∀ i, (evalGradFn s i).isSome) → ∃ s', backLoop s L = some s'
  | [], s, _ => ⟨s, rfl⟩
  | i :: L, s, h => by
    have hi := h i
    cases hev : evalGradFn s i with
    | none => rw [hev] at hi; simp at hi
    | some gs =>
      have hstep := step_grad_eq hev
      have hnext :
          ∀ k, (evalGradFn (applyPairs s ((nodeAt s i).children.zip gs)) k).isSome := by
        intro k
        rw [← evalGradFn_congr (applyPairs_sameStruct s _) k]
        exact h k
      obtain ⟨s', hs'⟩ := backLoop_total L _ hnext
      exact ⟨s', by simp [backLoop, hstep, hs']⟩

/-- C5 (amended): `backward` never checks that a gradient rule's output
length matches the node's child count — the `zip` pairs contributions
with children positionally up to the shorter of the two lists and drops
the rest silently.  On any acyclic store whose multiply nodes have at
least two children (the only panic the source can raise is the multiply
closure's `children[1]` indexing), the whole backward pass completes
normally, arity mismatches included. -/
theorem backward_no_arity_check (s : Store) (r : Nat) (_hwf : wfStore s)
    (hmul : ∀ n ∈ s, n.gradFn = GradFn.mulGrad → 2 ≤ n.children.length) :
    ∃ s', backward s r = some s' := by
  unfold backward
  apply backLoop_total
  intro i
  rw [← evalGradFn_congr (addGrad_sameStruct s r 1) i]
  exact evalGradFn_isSome_of hmul i

/-- C9: a successful backward pass leaves the store's length and every
node's `value`, `children` and `gradFn` exactly as they were; only
gradients change. -/
theorem backward_mutates_only_gradient (s s' : Store) (r : Nat)
    (_hwf : wfStore s) (h : backward s r = some s') :
    s'.length = s.length ∧ ∀ j : Nat,
      (nodeAt s' j).value = (nodeAt s j).value ∧
      (nodeAt s' j).children = (nodeAt s j).children ∧
      (nodeAt s' j).gradFn = (nodeAt s j).gradFn := by
  have hss := backward_sameStruct h
  exact ⟨hss.1.symm, fun j =>
    ⟨(hss.2 j).1.symm, (hss.2 j).2.1.symm, (hss.2 j).2.2.symm⟩⟩

/-! ### Freshly built graphs carry zero gradients -/

mutual

def zeroD : Differentiable → Prop
  | .mk _ g ch _ => g = 0 ∧ zeroL ch

def zeroL : List Differentiable → Prop
  | [] => True
  | d :: ds => zeroD d ∧ zeroL ds

end

theorem built_zero {d : Differentiable} (h : Built d) : zeroD d := by
  induction h with
  | lift v => simp [Differentiable.fromValue, zeroD, zeroL]
  | mulNode ha hb iha ihb =>
    simp [Differentiable.mul, zeroD, zeroL, iha, ihb]
  | mulRaw v ha iha =>
    simp [Differentiable.mulT, Differentiable.mul, Differentiable.fromValue,
      zeroD, zeroL, iha]

mutual

theorem load_zero : ∀ (t : Differentiable) (s : Store), zeroD t →
    (∀ n ∈ s, n.gradient = 0) → ∀ n ∈ (load t s).2, n.gradient = 0
  | .mk v g ch fn, s, hz, hs => by
    have hz' : g = 0 ∧ zeroL ch := by simpa [zeroD] using hz
    intro n hn
    simp only [load] at hn
    rw [List.mem_append] at hn
    rcases hn with hn | hn
    · exact loadList_zero ch s hz'.2 hs n hn
    · rw [List.mem_singleton] at hn
      subst hn
      exact hz'.1

theorem loadList_zero : ∀ (ds : List Differentiable) (s : Store), zeroL ds →
    (∀ n ∈ s, n.gradient = 0) → ∀ n ∈ (loadList ds s).2, n.gradient = 0
  | [], s, _, hs => hs
  | d :: ds, s, hz, hs => by
    have hz' : zeroD d ∧ zeroL ds := by simpa [zeroL] using hz
    exact loadList_zero ds (load d s).2 hz'.2 (load_zero d s hz'.1 hs)

end

theorem loaded_grad_zero {d : Differentiable} (hb : Built d) (j : Nat) :
    gradAt (load d []).2 j = 0 := by
  have hall := load_zero d [] (built_zero hb) (by intro n hn; cases hn)
  unfold gradAt
  by_cases hj : j < (load d []).2.length
  · exact hall _ (nodeAt_mem hj)
  · rw [nodeAt_of_le (Nat.le_of_not_lt hj)]
    rfl

/-- C7: running `backward` a second time on the same (unmodified) root
of a publicly constructed graph accumulates rather than overwrites: the
root is re-seeded with `gradient += 1` and after the second pass every
node — leaves included — carries exactly twice the gradient it had after
the first pass. -/
theorem backward_twice_doubles (d : Differentiable) (hb : Built d)
    (s1 s2 : Store)
    (h1 : backward (load d []).2 (load d []).1 = some s1)
    (h2 : backward s1 (load d []).1 = some s2) :
    ∀ j : Nat, gradAt s2 j = 2 * gradAt s1 j := by
  have hz : ∀ j, gradAt (load d []).2 j = 0 := loaded_grad_zero hb
  have hss : sameStruct (load d []).2 s1 := backward_sameStruct h1
  simp only [backward] at h1 h2
  have hsg : sameStruct (addGrad (load d []).2 (load d []).1 1)
      (addGrad s1 (load d []).1 1) :=
    sameStruct_trans
      (sameStruct_symm (addGrad_sameStruct (load d []).2 (load d []).1 1))
      (sameStruct_trans hss (addGrad_sameStruct s1 (load d []).1 1))
  have htopo : topology_sort (addGrad s1 (load d []).1 1) (load d []).1 =
      topology_sort (addGrad (load d []).2 (load d []).1 1) (load d []).1 := by
    unfold topology_sort
    exact topoFuel_congr (sameStruct_symm hsg) _ _
  rw [htopo] at h2
  obtain ⟨t', ht', hstruct, hdiff⟩ :=
    backLoop_par _ (addGrad (load d []).2 (load d []).1 1)
      (addGrad s1 (load d []).1 1) s1 hsg h1
  rw [ht'] at h2
  have heq : t' = s2 := Option.some.inj h2
  subst heq
  intro j
  have hd := hdiff j
  have hga := addGrad_grad (load d []).2 (load d []).1 1 j
  have hgb := addGrad_grad s1 (load d []).1 1 j
  have hlen : (load d []).2.length = s1.length := hss.1
  rw [hlen] at hga
  have hzj := hz j
  by_cases hc : (load d []).1 = j ∧ (load d []).1 < s1.length
  · rw [if_pos hc] at hga hgb
    omega
  · rw [if_neg hc] at hga hgb
    omega

/-! ### Concrete graphs used by the test-style claims -/

/-- The struct value `c = Differentiable::from(2) * Differentiable::from(3)`. -/
def cTree : Differentiable :=
  (Differentiable.fromValue 2).mul (Differentiable.fromValue 3)

/-- `cTree` loaded into an empty arena. -/
def cLoad : Nat × Store := load cTree []

def cStore : Store := cLoad.2

def cRoot : Nat := cLoad.1

/-- `d = (a * b) * a` with the leaf `a` genuinely shared between the two
multiplications: the arena holds a single node for `a` (index 0) that is
a child of both products.  (The public constructors cannot produce this
store — `mul` moves its operands — but it is the graph the spec's
chain-rule scenario describes.) -/
def dShared : Store :=
  [⟨2, 0, [], GradFn.leafGrad⟩,
   ⟨3, 0, [], GradFn.leafGrad⟩,
   ⟨6, 0, [0, 1], GradFn.mulGrad⟩,
   ⟨12, 0, [2, 0], GradFn.mulGrad⟩]

/-- `d = (a * b) * a2` as the public API actually forces it to be built:
`a` is moved into the inner product, so the outer factor is an
independent leaf `a2` with the same value. -/
def dTree : Differentiable :=
  ((Differentiable.fromValue 2).mul (Differentiable.fromValue 3)).mul
    (Differentiable.fromValue 2)

/-- `dTree` loaded into an empty arena. -/
def dCopyLoad : Nat × Store := load dTree []

/-- A store holding a node (index 1) whose gradient closure is the leaf
closure (returns `[]`) while it has one child: the rule's output length
(0) differs from the number of children (1). -/
def arityStore : Store :=
  [⟨5, 0, [], GradFn.leafGrad⟩,
   ⟨7, 0, [0], GradFn.leafGrad⟩]

/-- C2: the claim says that for `c = from(2) * from(3)`, after
`backward(c)` the leaves carry gradients 3 and 2.  The code violates
this: the multiply closure scales by the node's `value` instead of its
seeded gradient, so the leaves receive `c.value * b.value = 18` and
`c.value * a.value = 12`.  Only `c.value == 6` and `c.gradient == 1`
hold. -/
theorem single_multiply_gradient_bug :
    (nodeAt cStore cRoot).value = 6 ∧
    (backward cStore cRoot).map
        (fun s => (gradAt s cRoot, gradAt s 0, gradAt s 1)) =
      some (1, 18, 12) ∧
    (backward cStore cRoot).map (fun s => (gradAt s 0, gradAt s 1)) ≠
      some (3, 2) := by
  decide

/-- C3: the claim says the multiply closure returns
`[children[1].value, children[0].value]`.  On the product of leaves 2
and 3 (whose children values are 3 and 2) the code's closure returns
`[18, 12]` — each entry additionally multiplied by the node's own
`value` — refuting the claim. -/
theorem mul_gradfn_value_scaled_bug :
    (nodeAt cStore ((nodeAt cStore cRoot).children.getD 1 0)).value = 3 ∧
    (nodeAt cStore ((nodeAt cStore cRoot).children.getD 0 0)).value = 2 ∧
    evalGradFn cStore cRoot = some [18, 12] ∧
    evalGradFn cStore cRoot ≠ some [3, 2] := by
  decide

/-- C4: the claim says that for `d = (a*b)*a` with `a = 2, b = 3`,
`backward(d)` leaves `a.gradient == 12` and `b.gradient == 4`.  The code
violates this on both readings of the graph: on the shared-leaf store the
leaves end at 90 and 12; on the store the public constructors actually
build (independent copy of `a`) the two copies of `a` end at 18 and 72
and `b` at 12.  Only `d.value == 12` holds. -/
theorem chain_rule_shared_bug :
    (nodeAt dShared 3).value = 12 ∧
    (backward dShared 3).map (fun s => (gradAt s 0, gradAt s 1)) =
      some (90, 12) ∧
    (backward dShared 3).map (fun s => (gradAt s 0, gradAt s 1)) ≠
      some (12, 4) ∧
    (backward dCopyLoad.2 dCopyLoad.1).map
        (fun s => (gradAt s 0, gradAt s 3, gradAt s 1)) =
      some (18, 72, 12) := by
  decide

/-- C5 counterexample: a node whose gradient rule returns 0 contributions
while it has 1 child.  The claim says the backward pass must abort
loudly; instead `backward` completes (`some …`), the `zip` silently
pairs nothing, and the child's gradient is left untouched at 0. -/
theorem arity_mismatch_silent :
    (nodeAt arityStore 1).children.length = 1 ∧
    evalGradFn arityStore 1 = some [] ∧
    backward arityStore 1 =
      some [⟨5, 0, [], GradFn.leafGrad⟩, ⟨7, 1, [0], GradFn.leafGrad⟩] ∧
    (backward arityStore 1).map (fun s => gradAt s 0) = some 0 := by
  decide

/-- C6: lifting any value `v` yields a leaf node with `value = v`,
`gradient = 0` (the additive identity), no children, and a gradient rule
that evaluates to the empty sequence; `fromValue` is a total function
(never fails). -/
theorem fromValue_leaf_spec (v : Int) :
    (Differentiable.fromValue v).value = v ∧
    (Differentiable.fromValue v).gradient = 0 ∧
    (Differentiable.fromValue v).children = [] ∧
    evalGradFn (load (Differentiable.fromValue v) []).2
      (load (Differentiable.fromValue v) []).1 = some [] := by
  refine ⟨rfl, rfl, rfl, ?_⟩
  simp [load, loadList, evalGradFn, nodeAt, Differentiable.fromValue]

/-- C8: multiplying a node by a raw value first lifts the raw value into
a leaf via `Differentiable::from` and then delegates to the
node-by-node multiplication, producing the identical result node. -/
theorem mulT_lifts_then_delegates (a : Differentiable) (v : Int) :
    a.mulT v = a.mul (Differentiable.fromValue v) := rfl

/-! ### Witnesses -/

/-- The store of `cTree` after one `backward` pass from its root. -/
def cStoreAfter : Store :=
  [⟨2, 18, [], GradFn.leafGrad⟩,
   ⟨3, 12, [], GradFn.leafGrad⟩,
   ⟨6, 1, [0, 1], GradFn.mulGrad⟩]

/-- The store of `cTree` after two `backward` passes from its root. -/
def cStoreAfter2 : Store :=
  [⟨2, 36, [], GradFn.leafGrad⟩,
   ⟨3, 24, [], GradFn.leafGrad⟩,
   ⟨6, 2, [0, 1], GradFn.mulGrad⟩]

/-- Witness instantiating `topology_sort_complete_ordered` on the graph
`from(2) * from(3)`. -/
theorem topology_sort_complete_ordered_witness :
    Built cTree ∧
    ((topology_sort (load cTree []).2 (load cTree []).1).Nodup ∧
      (∀ i, Reaches (load cTree []).2 (load cTree []).1 i ↔
        i ∈ topology_sort (load cTree []).2 (load cTree []).1) ∧
      ∀ j ∈ topology_sort (load cTree []).2 (load cTree []).1,
        ∀ c ∈ (nodeAt (load cTree []).2 j).children,
          beforeIn (topology_sort (load cTree []).2 (load cTree []).1) c j) :=
  ⟨Built.mulNode (Built.lift 2) (Built.lift 3),
    topology_sort_complete_ordered cTree
      (Built.mulNode (Built.lift 2) (Built.lift 3))⟩

/-- Witness instantiating `backward_no_arity_check` on the store with
the arity-mismatched node. -/
theorem backward_no_arity_check_witness :
    (wfStore arityStore ∧
      ∀ n ∈ arityStore, n.gradFn = GradFn.mulGrad → 2 ≤ n.children.length) ∧
    ∃ s', backward arityStore 1 = some s' := by
  have hwf : wfStore arityStore := (wfStore_iff arityStore).mpr (by decide)
  have hmul : ∀ n ∈ arityStore,
      n.gradFn = GradFn.mulGrad → 2 ≤ n.children.length := by decide
  exact ⟨⟨hwf, hmul⟩, backward_no_arity_check arityStore 1 hwf hmul⟩

/-- Witness instantiating `backward_mutates_only_gradient` on the graph
`from(2) * from(3)`. -/
theorem backward_mutates_only_gradient_witness :
    (wfStore cStore ∧ backward cStore cRoot = some cStoreAfter) ∧
    (cStoreAfter.length = cStore.length ∧ ∀ j : Nat,
      (nodeAt cStoreAfter j).value = (nodeAt cStore j).value ∧
      (nodeAt cStoreAfter j).children = (nodeAt cStore j).children ∧
      (nodeAt cStoreAfter j).gradFn = (nodeAt cStore j).gradFn) := by
  have hwf : wfStore cStore := (wfStore_iff cStore).mpr (by decide)
  have hbk : backward cStore cRoot = some cStoreAfter := by decide
  exact ⟨⟨hwf, hbk⟩,
    backward_mutates_only_gradient cStore cStoreAfter cRoot hwf hbk⟩

/-- Witness instantiating `backward_twice_doubles` on the graph
`from(2) * from(3)`: the second pass doubles every gradient. -/
theorem backward_twice_doubles_witness :
    (Built cTree ∧
      backward (load cTree []).2 (load cTree []).1 = some cStoreAfter ∧
      backward cStoreAfter (load cTree []).1 = some cStoreAfter2) ∧
    ∀ j : Nat, gradAt cStoreAfter2 j = 2 * gradAt cStoreAfter j := by
  have hb : Built cTree := Built.mulNode (Built.lift 2) (Built.lift 3)
  have h1 : backward (load cTree []).2 (load cTree []).1 =
      some cStoreAfter := by decide
  have h2 : backward cStoreAfter (load cTree []).1 =
      some cStoreAfter2 := by decide
  exact ⟨⟨hb, h1, h2⟩,
    backward_twice_doubles cTree hb cStoreAfter cStoreAfter2 h1 h2⟩

/-- Witness instantiating `built_graph_tree` on the three-leaf graph
`(from(2) * from(3)) * from(2)`. -/
theorem built_graph_tree_witness :
    Built dTree ∧ ∀ i : Nat, (allKids (load dTree []).2).count i ≤ 1 :=
  ⟨Built.mulNode (Built.mulNode (Built.lift 2) (Built.lift 3)) (Built.lift 2),
    built_graph_tree dTree
      (Built.mulNode (Built.mulNode (Built.lift 2) (Built.lift 3))
        (Built.lift 2))⟩

end Mkgrad
